import Mathlib

/-!
Verification of the proposal canister (`src/Proposal_backend/src/lib.rs`):
a persistent map from 64-bit keys to `Proposal` records with four business
operations (`create_proposal`, `edit_proposal`, `end_proposal`, `vote`).

Shallow embedding conventions:
* A caller principal is an opaque, equality-comparable value, modelled as `Nat`.
* Keys (`u64` in the source) are modelled as `Nat`; no arithmetic is ever
  performed on keys, only equality, so the width does not matter.
* Vote tallies (`u32` in the source) are modelled as `Nat`.  A tally can only
  reach the size of the `voted` list, and the 5000-byte bound on an encoded
  record keeps that list far below `2^32` entries, so `u32` overflow is
  unreachable in the real system and is not modelled.
* `StableBTreeMap` is modelled as an association list with replace-on-insert
  semantics; `insert` returns the previous value at the key, exactly like
  `StableBTreeMap::insert`.
* `StableBTreeMap::insert` panics — the call traps — when the encoded value
  exceeds the `BoundedStorable` bound `MAX_VALUE_SIZE = 5000`.  `mapInsert`
  therefore returns an `Option`: `none` models the trap.  Every operation
  returns an `Option` of its Rust result for the same reason, and `opState`
  gives the map after a call: a trapped call rolls the state back to the
  pre-call map, per the canister execution model.  The encoded size is
  measured with the spec-modelled codec `proposalEncode` below, since the
  actual candid encoder is external to the repository.
* Each Rust function becomes a pure function taking the implicit pieces of
  state (the caller and the map) explicitly and returning the new map
  together with the source function's return value.
-/

abbrev Principal := Nat

/-- The `Proposal` record, field for field as in the source. -/
structure Proposal where
  description : String
  approve : Nat
  reject : Nat
  pass : Nat
  is_active : Bool
  voted : List Principal
  owner : Principal
  deriving DecidableEq, Repr

/-- The `Choice` enum of the source. -/
inductive Choice where
  | Approve
  | Reject
  | Pass
  deriving DecidableEq, Repr

/-- The `VoteError` enum of the source. -/
inductive VoteError where
  | AlreadyVoted
  | ProposalIsNotActive
  | NoSuchProposal
  | AccessRejected
  | UpdateError (msg : String)
  deriving DecidableEq, Repr

/-- The `CreateProposal` argument record of the source. -/
structure CreateProposal where
  description : String
  is_active : Bool
  deriving DecidableEq, Repr

/-! ### Record codec, modelled from the spec -/

/-- Byte sequences (each entry one byte). -/
abbrev Bytes := List Nat

/-- A self-delimiting block: a unary length header (`1`s terminated by `0`)
followed by the payload bytes. -/
def blob (l : Bytes) : Bytes :=
  List.replicate l.length 1 ++ 0 :: l

/-- Read a unary length header. -/
def readUnary : Bytes → Option (Nat × Bytes)
  | [] => none
  | b :: rest =>
    if b = 0 then some (0, rest)
    else if b = 1 then
      match readUnary rest with
      | none => none
      | some (n, r) => some (n + 1, r)
    else none

/-- Read one block. -/
def readBlob (bs : Bytes) : Option (Bytes × Bytes) :=
  match readUnary bs with
  | none => none
  | some (n, r) => if n ≤ r.length then some (r.take n, r.drop n) else none

/-- Little-endian base-256 digits, with explicit fuel for structural
recursion (fuel `n` always suffices). -/
def digitsAux : Nat → Nat → Bytes
  | 0, _ => []
  | fuel + 1, n => if n = 0 then [] else n % 256 :: digitsAux fuel (n / 256)

/-- Little-endian base-256 digits of a natural number. -/
def natDigits (n : Nat) : Bytes :=
  digitsAux n n

/-- Value of a little-endian base-256 digit list. -/
def digitsToNat : Bytes → Nat
  | [] => 0
  | d :: ds => d + 256 * digitsToNat ds

/-- Encode a natural number as a block of base-256 digits. -/
def encNat (n : Nat) : Bytes :=
  blob (natDigits n)

/-- Decode a natural number block. -/
def readNatB (bs : Bytes) : Option (Nat × Bytes) :=
  match readBlob bs with
  | none => none
  | some (l, r) => some (digitsToNat l, r)

/-- Encode a boolean as one byte. -/
def encBool (b : Bool) : Bytes :=
  [if b then 1 else 0]

/-- Decode a boolean byte. -/
def readBool : Bytes → Option (Bool × Bytes)
  | [] => none
  | b :: rest =>
    if b = 1 then some (true, rest)
    else if b = 0 then some (false, rest)
    else none

/-- Encode a string as the block of its characters' code points. -/
def encString (s : String) : Bytes :=
  blob (s.data.map Char.toNat)

/-- Decode a string block. -/
def readString (bs : Bytes) : Option (String × Bytes) :=
  match readBlob bs with
  | none => none
  | some (l, r) => some (String.mk (l.map Char.ofNat), r)

/-- Encode a principal list: unary count header followed by each principal. -/
def encPrincipalList (l : List Principal) : Bytes :=
  List.replicate l.length 1 ++ 0 :: (l.map encNat).flatten

/-- Read `n` consecutive encoded naturals. -/
def readNats : Nat → Bytes → Option (List Nat × Bytes)
  | 0, bs => some ([], bs)
  | n + 1, bs =>
    match readNatB bs with
    | none => none
    | some (x, r) =>
      match readNats n r with
      | none => none
      | some (xs, r2) => some (x :: xs, r2)

/-- Decode a principal list. -/
def readPrincipalList (bs : Bytes) : Option (List Principal × Bytes) :=
  match readUnary bs with
  | none => none
  | some (n, r) => readNats n r

/-- Modelled from the spec: the record codec used by `impl Storable for
Proposal` delegates to `Encode!`/`Decode!` of the external `candid` crate,
whose code is not part of this repository; per §4.2 it is a self-describing
binary encoding that reproduces every field exactly.  It is modelled as the
field-by-field concatenation of self-delimiting blocks, in declaration
order. -/
def proposalEncode (p : Proposal) : Bytes :=
  encString p.description ++ encNat p.approve ++ encNat p.reject ++ encNat p.pass ++
    encBool p.is_active ++ encPrincipalList p.voted ++ encNat p.owner

/-- Modelled from the spec: the matching decoder (`Decode!`), reading the
fields back in declaration order. -/
def proposalDecode (bs : Bytes) : Option Proposal :=
  (readString bs).bind fun dr =>
  (readNatB dr.2).bind fun ar =>
  (readNatB ar.2).bind fun rr =>
  (readNatB rr.2).bind fun sr =>
  (readBool sr.2).bind fun br =>
  (readPrincipalList br.2).bind fun vr =>
  (readNatB vr.2).bind fun wr =>
  some { description := dr.1, approve := ar.1, reject := rr.1, pass := sr.1,
         is_active := br.1, voted := vr.1, owner := wr.1 }

/-! ### The map model -/

/-- The `MAX_VALUE_SIZE` constant of the source: the maximum encoded size,
in bytes, of a stored record (`BoundedStorable::MAX_SIZE`). -/
def MAX_VALUE_SIZE : Nat := 5000

/-- The proposal map: association list with distinct keys maintained by
insertion.  Models the `StableBTreeMap<u64, Proposal, _>` in `PROPOSAL_MAP`. -/
abbrev PMap := List (Nat × Proposal)

/-- Models `StableBTreeMap::get`. -/
def mapGet : PMap → Nat → Option Proposal
  | [], _ => none
  | (k', v) :: rest, k => if k' = k then some v else mapGet rest k

/-- The in-bound behaviour of `StableBTreeMap::insert`: stores `v` at `k`
(replacing any previous binding) and returns the previous value at `k`, if
any. -/
def mapInsertRaw (m : PMap) (k : Nat) (v : Proposal) : PMap × Option Proposal :=
  ((k, v) :: m.filter (fun kv => kv.1 != k), mapGet m k)

/-- Models `StableBTreeMap::insert` for the bounded `Proposal` storable: a
value whose encoding exceeds `MAX_VALUE_SIZE` makes `insert` panic, i.e. the
call traps — modelled as `none`.  Otherwise the value is stored and the
previous value at the key is returned. -/
def mapInsert (m : PMap) (k : Nat) (v : Proposal) : Option (PMap × Option Proposal) :=
  if (proposalEncode v).length ≤ MAX_VALUE_SIZE then some (mapInsertRaw m k v) else none

/-- The map after a call returns: a trapped call (`none`) rolls the state
back to the pre-call map. -/
def opState {α : Type} (m : PMap) (r : Option (PMap × α)) : PMap :=
  match r with
  | none => m
  | some x => x.1

/-! ### The canister operations -/

/-- Query `get_proposal`. -/
def get_proposal (m : PMap) (key : Nat) : Option Proposal :=
  mapGet m key

/-- Query `get_proposal_count`, i.e. `PROPOSAL_MAP.len()`. -/
def get_proposal_count (m : PMap) : Nat :=
  m.length

/-- The fresh record built by `create_proposal` (zero tallies, empty voted
list, owner = caller). -/
def freshProposal (c : Principal) (proposal : CreateProposal) : Proposal :=
  { description := proposal.description
    approve := 0
    reject := 0
    pass := 0
    is_active := proposal.is_active
    voted := []
    owner := c }

/-- Update `create_proposal`: builds the fresh record and inserts it,
returning the previous value (`none` result = the insert trapped). -/
def create_proposal (c : Principal) (m : PMap) (key : Nat) (proposal : CreateProposal) :
    Option (PMap × Option Proposal) :=
  mapInsert m key (freshProposal c proposal)

/-- The final `insert(key, value).ok_or(VoteError::UpdateError("Insert failed"))`
line shared by `edit_proposal`, `end_proposal` and `vote`: an oversized value
traps inside `insert` (`none`); otherwise the map is updated and the returned
`Result` is `Ok` exactly when `insert` yielded a previous value. -/
def writeBack (m : PMap) (key : Nat) (v : Proposal) : Option (PMap × Except VoteError Unit) :=
  match mapInsert m key v with
  | none => none
  | some (m', some _) => some (m', Except.ok ())
  | some (m', none) => some (m', Except.error (VoteError.UpdateError "Insert failed"))

/-- Update `edit_proposal`. -/
def edit_proposal (c : Principal) (m : PMap) (key : Nat) (proposal : CreateProposal) :
    Option (PMap × Except VoteError Unit) :=
  match mapGet m key with
  | none => some (m, Except.error VoteError.NoSuchProposal)
  | some old_proposal =>
    if c ≠ old_proposal.owner then
      some (m, Except.error VoteError.AccessRejected)
    else
      writeBack m key
        { old_proposal with
          description := proposal.description
          is_active := proposal.is_active }

/-- Update `end_proposal`. -/
def end_proposal (c : Principal) (m : PMap) (key : Nat) :
    Option (PMap × Except VoteError Unit) :=
  match mapGet m key with
  | none => some (m, Except.error VoteError.NoSuchProposal)
  | some proposal =>
    if c ≠ proposal.owner then
      some (m, Except.error VoteError.AccessRejected)
    else
      writeBack m key { proposal with is_active := false }

/-- The `match choice` tally update inside `vote`. -/
def tallied (choice : Choice) (p : Proposal) : Proposal :=
  match choice with
  | Choice.Approve => { p with approve := p.approve + 1 }
  | Choice.Reject => { p with reject := p.reject + 1 }
  | Choice.Pass => { p with pass := p.pass + 1 }

/-- The record written back by a successful `vote`: the tally update followed
by `proposal.voted.push(caller)`. -/
def castBallot (c : Principal) (choice : Choice) (p : Proposal) : Proposal :=
  let p1 := tallied choice p
  { p1 with voted := p1.voted ++ [c] }

/-- Update `vote`. -/
def vote (c : Principal) (m : PMap) (key : Nat) (choice : Choice) :
    Option (PMap × Except VoteError Unit) :=
  match mapGet m key with
  | none => some (m, Except.error VoteError.NoSuchProposal)
  | some proposal =>
    if proposal.voted.contains c then
      some (m, Except.error VoteError.AlreadyVoted)
    else if !proposal.is_active then
      some (m, Except.error VoteError.ProposalIsNotActive)
    else
      writeBack m key (castBallot c choice proposal)

/-! ### Basic lemmas about the map model -/

theorem mapGet_filter_ne {m : PMap} {k k' : Nat} (h : k' ≠ k) :
    mapGet (m.filter (fun kv => kv.1 != k)) k' = mapGet m k' := by
  induction m with
  | nil => rfl
  | cons kv rest ih =>
    obtain ⟨a, v⟩ := kv
    simp only [List.filter_cons]
    by_cases hak : a = k
    · subst hak
      simp [mapGet, Ne.symm h, ih]
    · have hb : (a != k) = true := bne_iff_ne.mpr hak
      simp [hb, mapGet, ih]

theorem mapGet_mapInsertRaw (m : PMap) (k : Nat) (v : Proposal) (k' : Nat) :
    mapGet (mapInsertRaw m k v).1 k' = if k = k' then some v else mapGet m k' := by
  by_cases h : k = k'
  · subst h
    simp [mapInsertRaw, mapGet]
  · simp [mapInsertRaw, mapGet, h, mapGet_filter_ne (Ne.symm h)]

theorem mapInsertRaw_snd (m : PMap) (k : Nat) (v : Proposal) :
    (mapInsertRaw m k v).2 = mapGet m k := rfl

theorem mapInsert_of_fits {v : Proposal}
    (hfit : (proposalEncode v).length ≤ MAX_VALUE_SIZE) (m : PMap) (k : Nat) :
    mapInsert m k v = some (mapInsertRaw m k v) := by
  simp [mapInsert, hfit]

theorem mapInsert_of_oversized {v : Proposal}
    (hfit : ¬ (proposalEncode v).length ≤ MAX_VALUE_SIZE) (m : PMap) (k : Nat) :
    mapInsert m k v = none := by
  simp [mapInsert, hfit]

theorem opState_mapInsert (m : PMap) (k : Nat) (v : Proposal) :
    opState m (mapInsert m k v) =
      if (proposalEncode v).length ≤ MAX_VALUE_SIZE then (mapInsertRaw m k v).1 else m := by
  by_cases hfit : (proposalEncode v).length ≤ MAX_VALUE_SIZE
  · simp [mapInsert, hfit, opState]
  · simp [mapInsert, hfit, opState]

theorem writeBack_of_fits_present {v : Proposal}
    (hfit : (proposalEncode v).length ≤ MAX_VALUE_SIZE) {m : PMap} {key : Nat}
    {p : Proposal} (hget : mapGet m key = some p) :
    writeBack m key v = some ((mapInsertRaw m key v).1, Except.ok ()) := by
  simp [writeBack, mapInsert_of_fits hfit, mapInsertRaw, hget]

theorem writeBack_of_oversized {v : Proposal}
    (hfit : ¬ (proposalEncode v).length ≤ MAX_VALUE_SIZE) (m : PMap) (key : Nat) :
    writeBack m key v = none := by
  simp [writeBack, mapInsert_of_oversized hfit]

theorem opState_writeBack (m : PMap) (key : Nat) (v : Proposal) :
    opState m (writeBack m key v) =
      if (proposalEncode v).length ≤ MAX_VALUE_SIZE then (mapInsertRaw m key v).1 else m := by
  by_cases hfit : (proposalEncode v).length ≤ MAX_VALUE_SIZE
  · rw [if_pos hfit]
    cases hget : mapGet m key with
    | none => simp [writeBack, mapInsert_of_fits hfit, mapInsertRaw, hget, opState]
    | some p => simp [writeBack_of_fits_present hfit hget, opState]
  · rw [if_neg hfit]
    simp [writeBack_of_oversized hfit, opState]

theorem tallied_approve (choice : Choice) (p : Proposal) :
    (tallied choice p).approve = p.approve + (if choice = Choice.Approve then 1 else 0) := by
  cases choice <;> simp [tallied]

theorem tallied_reject (choice : Choice) (p : Proposal) :
    (tallied choice p).reject = p.reject + (if choice = Choice.Reject then 1 else 0) := by
  cases choice <;> simp [tallied]

theorem tallied_pass (choice : Choice) (p : Proposal) :
    (tallied choice p).pass = p.pass + (if choice = Choice.Pass then 1 else 0) := by
  cases choice <;> simp [tallied]

theorem tallied_voted (choice : Choice) (p : Proposal) :
    (tallied choice p).voted = p.voted := by
  cases choice <;> rfl

theorem tallied_description (choice : Choice) (p : Proposal) :
    (tallied choice p).description = p.description := by
  cases choice <;> rfl

theorem tallied_is_active (choice : Choice) (p : Proposal) :
    (tallied choice p).is_active = p.is_active := by
  cases choice <;> rfl

theorem tallied_owner (choice : Choice) (p : Proposal) :
    (tallied choice p).owner = p.owner := by
  cases choice <;> rfl

theorem castBallot_approve (c : Principal) (choice : Choice) (p : Proposal) :
    (castBallot c choice p).approve = p.approve + (if choice = Choice.Approve then 1 else 0) :=
  tallied_approve choice p

theorem castBallot_reject (c : Principal) (choice : Choice) (p : Proposal) :
    (castBallot c choice p).reject = p.reject + (if choice = Choice.Reject then 1 else 0) :=
  tallied_reject choice p

theorem castBallot_pass (c : Principal) (choice : Choice) (p : Proposal) :
    (castBallot c choice p).pass = p.pass + (if choice = Choice.Pass then 1 else 0) :=
  tallied_pass choice p

theorem castBallot_voted (c : Principal) (choice : Choice) (p : Proposal) :
    (castBallot c choice p).voted = p.voted ++ [c] := by
  have : (castBallot c choice p).voted = (tallied choice p).voted ++ [c] := rfl
  rw [this, tallied_voted]

theorem castBallot_description (c : Principal) (choice : Choice) (p : Proposal) :
    (castBallot c choice p).description = p.description :=
  tallied_description choice p

theorem castBallot_is_active (c : Principal) (choice : Choice) (p : Proposal) :
    (castBallot c choice p).is_active = p.is_active :=
  tallied_is_active choice p

theorem castBallot_owner (c : Principal) (choice : Choice) (p : Proposal) :
    (castBallot c choice p).owner = p.owner :=
  tallied_owner choice p

theorem length_encBool (b : Bool) : (encBool b).length = 1 := by
  cases b <;> rfl

theorem length_blob (l : Bytes) : (blob l).length = 2 * l.length + 1 := by
  simp [blob]
  omega

theorem length_encString (s : String) : (encString s).length = 2 * s.data.length + 1 := by
  simp [encString, length_blob]

theorem proposalEncode_length_set_is_active (p : Proposal) (b : Bool) :
    (proposalEncode { p with is_active := b }).length = (proposalEncode p).length := by
  simp [proposalEncode, length_encBool]

theorem vote_of_mem_voted {m : PMap} {key : Nat} {c : Principal} {p : Proposal}
    (choice : Choice) (hget : mapGet m key = some p) (hmem : c ∈ p.voted) :
    vote c m key choice = some (m, Except.error VoteError.AlreadyVoted) := by
  simp [vote, hget, hmem]

/-! ### C1 -/

/-- C1: for every stored proposal and every caller already in its `voted` set,
`vote` returns `AlreadyVoted` (leaving the map unchanged) regardless of
`is_active`: the `AlreadyVoted` check strictly precedes the active check. -/
theorem vote_already_voted_first (m : PMap) (key : Nat) (c : Principal)
    (choice : Choice) (p : Proposal) (hget : get_proposal m key = some p)
    (hmem : c ∈ p.voted) :
    vote c m key choice = some (m, Except.error VoteError.AlreadyVoted) := by
  rw [get_proposal] at hget
  exact vote_of_mem_voted choice hget hmem

/-- Witness for C1: a caller who already voted on a now-inactive proposal
receives `AlreadyVoted`, not `ProposalIsNotActive`. -/
theorem vote_already_voted_first_witness :
    vote 7 [(1, ⟨"d", 0, 0, 0, false, [7], 3⟩)] 1 Choice.Approve =
      some ([(1, ⟨"d", 0, 0, 0, false, [7], 3⟩)], Except.error VoteError.AlreadyVoted) :=
  vote_already_voted_first _ 1 7 Choice.Approve ⟨"d", 0, 0, 0, false, [7], 3⟩ rfl
    (List.mem_singleton.mpr rfl)

/-! ### C3 -/

/-- A description of 6000 characters: its encoding alone exceeds
`MAX_VALUE_SIZE`, so inserting a record carrying it traps. -/
def hugeDescription : String :=
  String.mk (List.replicate 6000 'a')

theorem hugeDescription_data_length : hugeDescription.data.length = 6000 := by
  have h : hugeDescription.data = List.replicate 6000 'a' := rfl
  rw [h, List.length_replicate]

theorem huge_record_encode_length (a r s2 : Nat) (b : Bool) :
    (proposalEncode
      { description := hugeDescription, approve := a, reject := r, pass := s2,
        is_active := b, voted := [], owner := 3 }).length =
      12006 + (encNat a).length + (encNat r).length + (encNat s2).length := by
  simp only [proposalEncode, List.length_append]
  rw [length_encString, hugeDescription_data_length, length_encBool]
  have ev : (encPrincipalList ([] : List Principal)).length = 1 := rfl
  have eo : (encNat (3 : Principal)).length = 3 := rfl
  rw [ev, eo]
  omega

theorem huge_create_oversized :
    ¬ (proposalEncode (freshProposal 3 ⟨hugeDescription, true⟩)).length ≤ MAX_VALUE_SIZE := by
  intro hle
  have hfre : freshProposal 3 ⟨hugeDescription, true⟩ =
      { description := hugeDescription, approve := 0, reject := 0, pass := 0,
        is_active := true, voted := [], owner := 3 } := rfl
  rw [hfre, huge_record_encode_length] at hle
  have e0 : (encNat 0).length = 1 := rfl
  rw [e0, MAX_VALUE_SIZE] at hle
  omega

/-- Counterexample to C3 as stated: `create_proposal` does not store and
return the previous value for *every* argument — with a 6000-character
description the insert traps (the call aborts with no result and no
mutation) instead of storing the record. -/
theorem create_proposal_spec_counterexample :
    create_proposal 3 [] 1 ⟨hugeDescription, true⟩ = none := by
  show mapInsert [] 1 (freshProposal 3 ⟨hugeDescription, true⟩) = none
  exact mapInsert_of_oversized huge_create_oversized [] 1

/-- C3 (amended): provided the constructed record's encoding fits the
5000-byte maximum, `create_proposal` inserts a record with `owner = caller`,
zero tallies, empty voted set and the given description/activity,
overwriting any existing value at that key without an existence check, and
returns the previous value at that key (absence if there was none); an
oversized record makes the call trap instead. -/
theorem create_proposal_spec (c : Principal) (m : PMap) (key : Nat)
    (proposal : CreateProposal)
    (hfit : (proposalEncode (freshProposal c proposal)).length ≤ MAX_VALUE_SIZE) :
    ∃ m' : PMap,
      create_proposal c m key proposal = some (m', get_proposal m key) ∧
      get_proposal m' key =
        some { description := proposal.description, approve := 0, reject := 0,
               pass := 0, is_active := proposal.is_active, voted := [], owner := c } := by
  refine ⟨(mapInsertRaw m key (freshProposal c proposal)).1, ?_, ?_⟩
  · rw [create_proposal, mapInsert_of_fits hfit]
    rfl
  · rw [get_proposal, mapGet_mapInsertRaw]
    simp [freshProposal]

/-- Witness for C3: creating a small proposal at a fresh key returns absence
and stores the expected record. -/
theorem create_proposal_spec_witness :
    ∃ m' : PMap,
      create_proposal 3 [] 1 ⟨"d", true⟩ = some (m', get_proposal [] 1) ∧
      get_proposal m' 1 =
        some { description := "d", approve := 0, reject := 0,
               pass := 0, is_active := true, voted := [], owner := 3 } :=
  create_proposal_spec 3 [] 1 ⟨"d", true⟩ (by decide)

/-! ### C10 -/

/-- C10: whenever `mapInsert` returns at all it returns the previous stored
value, so in `edit_proposal`, `end_proposal` and `vote` the
`ok_or(UpdateError)` branch — which fires exactly when `insert` returns no
previous value — is unreachable once the precondition checks have passed:
none of the three operations can ever return the `UpdateError` variant
(an oversized write traps, it does not return). -/
theorem update_error_unreachable (c : Principal) (m : PMap) (key : Nat)
    (proposal : CreateProposal) (choice : Choice) (v : Proposal) (s : String) :
    (∀ r : PMap × Option Proposal, mapInsert m key v = some r → r.2 = mapGet m key) ∧
    (∀ r : PMap × Except VoteError Unit,
      edit_proposal c m key proposal = some r →
      r.2 ≠ Except.error (VoteError.UpdateError s)) ∧
    (∀ r : PMap × Except VoteError Unit,
      end_proposal c m key = some r → r.2 ≠ Except.error (VoteError.UpdateError s)) ∧
    (∀ r : PMap × Except VoteError Unit,
      vote c m key choice = some r → r.2 ≠ Except.error (VoteError.UpdateError s)) := by
  refine ⟨?_, ?_, ?_, ?_⟩
  · intro r hr
    by_cases hfit : (proposalEncode v).length ≤ MAX_VALUE_SIZE
    · rw [mapInsert_of_fits hfit] at hr
      have h := Option.some.inj hr
      rw [← h]
      rfl
    · rw [mapInsert_of_oversized hfit] at hr
      simp at hr
  · intro r hr
    cases hm : mapGet m key with
    | none =>
      simp [edit_proposal, hm] at hr
      subst hr
      simp
    | some p =>
      by_cases hc : c = p.owner
      · rw [edit_proposal] at hr
        simp only [hm, hc, ne_eq, not_true_eq_false, if_false] at hr
        by_cases hfit : (proposalEncode
            { p with
              description := proposal.description
              is_active := proposal.is_active }).length ≤ MAX_VALUE_SIZE
        · rw [writeBack_of_fits_present hfit hm] at hr
          have h := Option.some.inj hr
          rw [← h]
          simp
        · rw [writeBack_of_oversized hfit] at hr
          simp at hr
      · simp [edit_proposal, hm, hc] at hr
        subst hr
        simp
  · intro r hr
    cases hm : mapGet m key with
    | none =>
      simp [end_proposal, hm] at hr
      subst hr
      simp
    | some p =>
      by_cases hc : c = p.owner
      · rw [end_proposal] at hr
        simp only [hm, hc, ne_eq, not_true_eq_false, if_false] at hr
        by_cases hfit : (proposalEncode { p with is_active := false }).length ≤ MAX_VALUE_SIZE
        · rw [writeBack_of_fits_present hfit hm] at hr
          have h := Option.some.inj hr
          rw [← h]
          simp
        · rw [writeBack_of_oversized hfit] at hr
          simp at hr
      · simp [end_proposal, hm, hc] at hr
        subst hr
        simp
  · intro r hr
    cases hm : mapGet m key with
    | none =>
      simp [vote, hm] at hr
      subst hr
      simp
    | some p =>
      by_cases hv : c ∈ p.voted
      · simp [vote, hm, hv] at hr
        subst hr
        simp
      · by_cases ha : p.is_active
        · have hvote : vote c m key choice = writeBack m key (castBallot c choice p) := by
            simp [vote, hm, hv, ha]
          rw [hvote] at hr
          by_cases hfit : (proposalEncode (castBallot c choice p)).length ≤ MAX_VALUE_SIZE
          · rw [writeBack_of_fits_present hfit hm] at hr
            have h := Option.some.inj hr
            rw [← h]
            simp
          · rw [writeBack_of_oversized hfit] at hr
            simp at hr
        · simp [vote, hm, hv, ha] at hr
          subst hr
          simp

/-- Witness for C10: a concrete in-bound insert returns the previous stored
value, and a concrete successful edit result is not the `UpdateError`
variant. -/
theorem update_error_unreachable_witness :
    (([(1, (⟨"d", 0, 0, 0, true, [], 3⟩ : Proposal))],
        some (⟨"d", 0, 0, 0, true, [], 3⟩ : Proposal)).2 =
      mapGet [(1, ⟨"d", 0, 0, 0, true, [], 3⟩)] 1) ∧
    (([(1, (⟨"e", 0, 0, 0, true, [], 3⟩ : Proposal))],
        (Except.ok () : Except VoteError Unit)).2 ≠
      Except.error (VoteError.UpdateError "Insert failed")) :=
  ⟨(update_error_unreachable 3 [(1, ⟨"d", 0, 0, 0, true, [], 3⟩)] 1 ⟨"e", true⟩
      Choice.Approve ⟨"d", 0, 0, 0, true, [], 3⟩ "Insert failed").1
      ([(1, ⟨"d", 0, 0, 0, true, [], 3⟩)], some ⟨"d", 0, 0, 0, true, [], 3⟩) rfl,
    (update_error_unreachable 3 [(1, ⟨"d", 0, 0, 0, true, [], 3⟩)] 1 ⟨"e", true⟩
      Choice.Approve ⟨"d", 0, 0, 0, true, [], 3⟩ "Insert failed").2.1
      ([(1, ⟨"e", 0, 0, 0, true, [], 3⟩)], Except.ok ()) rfl⟩

/-! ### C2 -/

/-- A description of 2495 characters: the stored record fits the bound
(4999 bytes) but the record grown by one vote (5005 bytes) does not. -/
def nearLimitDescription : String :=
  String.mk (List.replicate 2495 'a')

/-- A storable proposal within one vote of the size bound. -/
def nearLimitProposal : Proposal :=
  { description := nearLimitDescription, approve := 0, reject := 0, pass := 0,
    is_active := true, voted := [], owner := 3 }

theorem nearLimitDescription_data_length : nearLimitDescription.data.length = 2495 := by
  have h : nearLimitDescription.data = List.replicate 2495 'a' := rfl
  rw [h, List.length_replicate]

theorem nearLimitProposal_fits :
    (proposalEncode nearLimitProposal).length ≤ MAX_VALUE_SIZE := by
  have h : nearLimitProposal =
      { description := nearLimitDescription, approve := 0, reject := 0, pass := 0,
        is_active := true, voted := [], owner := 3 } := rfl
  rw [h]
  simp only [proposalEncode, List.length_append]
  rw [length_encString, nearLimitDescription_data_length, length_encBool]
  have e0 : (encNat 0).length = 1 := rfl
  have ev : (encPrincipalList ([] : List Principal)).length = 1 := rfl
  have eo : (encNat (3 : Principal)).length = 3 := rfl
  rw [e0, ev, eo, MAX_VALUE_SIZE]
  omega

theorem nearLimit_grown_oversized :
    ¬ (proposalEncode (castBallot 4 Choice.Approve nearLimitProposal)).length ≤
      MAX_VALUE_SIZE := by
  intro hle
  have h : castBallot 4 Choice.Approve nearLimitProposal =
      { description := nearLimitDescription, approve := 1, reject := 0, pass := 0,
        is_active := true, voted := [4], owner := 3 } := rfl
  rw [h] at hle
  simp only [proposalEncode, List.length_append] at hle
  rw [length_encString, nearLimitDescription_data_length, length_encBool] at hle
  have e0 : (encNat 0).length = 1 := rfl
  have e1 : (encNat 1).length = 3 := rfl
  have ev : (encPrincipalList ([4] : List Principal)).length = 5 := rfl
  have eo : (encNat (3 : Principal)).length = 3 := rfl
  rw [e0, e1, ev, eo, MAX_VALUE_SIZE] at hle
  omega

/-- Counterexample to C2 as stated: a stored, storable (4999-byte), active
proposal whose voted set lacks caller 4 — yet `vote` does not succeed: the
record grown by the vote encodes to 5005 bytes, so the insert traps. -/
theorem vote_spec_counterexample :
    get_proposal [(1, nearLimitProposal)] 1 = some nearLimitProposal ∧
    nearLimitProposal.is_active = true ∧
    (4 : Principal) ∉ nearLimitProposal.voted ∧
    (proposalEncode nearLimitProposal).length ≤ MAX_VALUE_SIZE ∧
    vote 4 [(1, nearLimitProposal)] 1 Choice.Approve = none := by
  refine ⟨rfl, rfl, ?_, nearLimitProposal_fits, ?_⟩
  · have h : nearLimitProposal.voted = [] := rfl
    rw [h]
    simp
  · have hm : mapGet [(1, nearLimitProposal)] 1 = some nearLimitProposal := rfl
    have hmem : (4 : Principal) ∉ nearLimitProposal.voted := by
      have h : nearLimitProposal.voted = [] := rfl
      rw [h]
      simp
    have ha : nearLimitProposal.is_active = true := rfl
    have hvote : vote 4 [(1, nearLimitProposal)] 1 Choice.Approve =
        writeBack [(1, nearLimitProposal)] 1 (castBallot 4 Choice.Approve nearLimitProposal) := by
      simp [vote, hm, hmem, ha]
    rw [hvote, writeBack_of_oversized nearLimit_grown_oversized]

/-- C2 (amended): if the key is absent `vote` returns `NoSuchProposal`; for a
stored active proposal whose voted set does not contain the caller (any
caller, ownership is never consulted), provided the record grown by the vote
still encodes within the 5000-byte maximum, `vote` succeeds and afterwards
exactly the tally matching the choice is incremented by 1, the caller is
appended to `voted`, and `description`, `is_active` and `owner` are
unchanged; if the grown record exceeds the bound the call traps. -/
theorem vote_spec :
    (∀ (c : Principal) (m : PMap) (key : Nat) (choice : Choice),
      get_proposal m key = none →
      vote c m key choice = some (m, Except.error VoteError.NoSuchProposal)) ∧
    (∀ (c : Principal) (m : PMap) (key : Nat) (choice : Choice) (p : Proposal),
      get_proposal m key = some p → p.is_active = true → c ∉ p.voted →
      (proposalEncode (castBallot c choice p)).length ≤ MAX_VALUE_SIZE →
      ∃ m' : PMap,
        vote c m key choice = some (m', Except.ok ()) ∧
        ∃ q : Proposal,
          get_proposal m' key = some q ∧
          q.approve = p.approve + (if choice = Choice.Approve then 1 else 0) ∧
          q.reject = p.reject + (if choice = Choice.Reject then 1 else 0) ∧
          q.pass = p.pass + (if choice = Choice.Pass then 1 else 0) ∧
          q.voted = p.voted ++ [c] ∧
          q.description = p.description ∧
          q.is_active = p.is_active ∧
          q.owner = p.owner) ∧
    (∀ (c : Principal) (m : PMap) (key : Nat) (choice : Choice) (p : Proposal),
      get_proposal m key = some p → p.is_active = true → c ∉ p.voted →
      ¬ (proposalEncode (castBallot c choice p)).length ≤ MAX_VALUE_SIZE →
      vote c m key choice = none) := by
  refine ⟨?_, ?_, ?_⟩
  · intro c m key choice hnone
    rw [get_proposal] at hnone
    simp [vote, hnone]
  · intro c m key choice p hget hact hmem hfit
    rw [get_proposal] at hget
    have hvote : vote c m key choice = writeBack m key (castBallot c choice p) := by
      simp [vote, hget, hmem, hact]
    refine ⟨(mapInsertRaw m key (castBallot c choice p)).1, ?_, castBallot c choice p,
      ?_, ?_, ?_, ?_, ?_, ?_, ?_, ?_⟩
    · rw [hvote, writeBack_of_fits_present hfit hget]
    · rw [get_proposal, mapGet_mapInsertRaw]
      simp
    · exact castBallot_approve c choice p
    · exact castBallot_reject c choice p
    · exact castBallot_pass c choice p
    · exact castBallot_voted c choice p
    · exact castBallot_description c choice p
    · exact castBallot_is_active c choice p
    · exact castBallot_owner c choice p
  · intro c m key choice p hget hact hmem hfit
    rw [get_proposal] at hget
    have hvote : vote c m key choice = writeBack m key (castBallot c choice p) := by
      simp [vote, hget, hmem, hact]
    rw [hvote, writeBack_of_oversized hfit]

/-- Witness for C2: absent key yields `NoSuchProposal`; a caller voting on a
small active proposal succeeds with the `Approve` tally incremented. -/
theorem vote_spec_witness :
    vote 7 [] 1 Choice.Approve = some ([], Except.error VoteError.NoSuchProposal) ∧
    ∃ m' : PMap,
      vote 3 [(1, ⟨"d", 0, 0, 0, true, [], 3⟩)] 1 Choice.Approve =
        some (m', Except.ok ()) ∧
      ∃ q : Proposal,
        get_proposal m' 1 = some q ∧
        q.approve = 0 + (if Choice.Approve = Choice.Approve then 1 else 0) ∧
        q.reject = 0 + (if Choice.Approve = Choice.Reject then 1 else 0) ∧
        q.pass = 0 + (if Choice.Approve = Choice.Pass then 1 else 0) ∧
        q.voted = [] ++ [3] ∧
        q.description = "d" ∧
        q.is_active = true ∧
        q.owner = 3 :=
  ⟨vote_spec.1 7 [] 1 Choice.Approve rfl,
    vote_spec.2.1 3 [(1, ⟨"d", 0, 0, 0, true, [], 3⟩)] 1 Choice.Approve
      ⟨"d", 0, 0, 0, true, [], 3⟩ rfl rfl (by simp) (by decide)⟩

/-! ### C4 -/

theorem huge_edit_oversized :
    ¬ (proposalEncode
        { description := hugeDescription, approve := 0, reject := 0, pass := 0,
          is_active := true, voted := [], owner := 3 }).length ≤ MAX_VALUE_SIZE := by
  intro hle
  rw [huge_record_encode_length] at hle
  have e0 : (encNat 0).length = 1 := rfl
  rw [e0, MAX_VALUE_SIZE] at hle
  omega

/-- Counterexample to C4 as stated: the stored owner edits an existing small
proposal, but with a 6000-character description the edited record encodes
over the bound and the call traps instead of succeeding. -/
theorem edit_end_frame_counterexample :
    get_proposal [(1, (⟨"d", 0, 0, 0, true, [], 3⟩ : Proposal))] 1 =
      some ⟨"d", 0, 0, 0, true, [], 3⟩ ∧
    (⟨"d", 0, 0, 0, true, [], 3⟩ : Proposal).owner = 3 ∧
    edit_proposal 3 [(1, ⟨"d", 0, 0, 0, true, [], 3⟩)] 1 ⟨hugeDescription, true⟩ = none := by
  refine ⟨rfl, rfl, ?_⟩
  have hm : mapGet [(1, (⟨"d", 0, 0, 0, true, [], 3⟩ : Proposal))] 1 =
      some ⟨"d", 0, 0, 0, true, [], 3⟩ := rfl
  have hedit : edit_proposal 3 [(1, ⟨"d", 0, 0, 0, true, [], 3⟩)] 1 ⟨hugeDescription, true⟩ =
      writeBack [(1, ⟨"d", 0, 0, 0, true, [], 3⟩)] 1
        { description := hugeDescription, approve := 0, reject := 0, pass := 0,
          is_active := true, voted := [], owner := 3 } := by
    simp [edit_proposal, hm]
  rw [hedit, writeBack_of_oversized huge_edit_oversized]

/-- C4 (amended): when the caller is the stored owner of an existing
proposal, `edit_proposal` replaces only `description` and `is_active` (so it
may set `is_active` back to `true` after `end_proposal`) while tallies,
`voted` and `owner` are unchanged — provided the edited record still encodes
within the 5000-byte maximum (otherwise the call traps); and `end_proposal`
sets `is_active := false` with every other field unchanged, provided the
stored record encodes within the bound (deactivation does not change the
encoded size, and every committed record satisfies the bound). -/
theorem edit_end_frame (c : Principal) (m : PMap) (key : Nat)
    (proposal : CreateProposal) (p : Proposal)
    (hget : get_proposal m key = some p) (hown : c = p.owner) :
    ((proposalEncode
        { p with
          description := proposal.description
          is_active := proposal.is_active }).length ≤ MAX_VALUE_SIZE →
      ∃ m' : PMap,
        edit_proposal c m key proposal = some (m', Except.ok ()) ∧
        get_proposal m' key =
          some { p with
                 description := proposal.description
                 is_active := proposal.is_active }) ∧
    ((proposalEncode p).length ≤ MAX_VALUE_SIZE →
      ∃ m' : PMap,
        end_proposal c m key = some (m', Except.ok ()) ∧
        get_proposal m' key = some { p with is_active := false }) := by
  rw [get_proposal] at hget
  constructor
  · intro hfit
    have hedit : edit_proposal c m key proposal =
        writeBack m key
          { p with
            description := proposal.description
            is_active := proposal.is_active } := by
      simp [edit_proposal, hget, hown]
    refine ⟨(mapInsertRaw m key
        { p with
          description := proposal.description
          is_active := proposal.is_active }).1, ?_, ?_⟩
    · rw [hedit, writeBack_of_fits_present hfit hget]
    · rw [get_proposal, mapGet_mapInsertRaw]
      simp
  · intro hp
    have hfit2 : (proposalEncode { p with is_active := false }).length ≤ MAX_VALUE_SIZE := by
      rw [proposalEncode_length_set_is_active]
      exact hp
    have hend : end_proposal c m key = writeBack m key { p with is_active := false } := by
      simp [end_proposal, hget, hown]
    refine ⟨(mapInsertRaw m key { p with is_active := false }).1, ?_, ?_⟩
    · rw [hend, writeBack_of_fits_present hfit2 hget]
    · rw [get_proposal, mapGet_mapInsertRaw]
      simp

/-- Witness for C4: the owner edits a closed small proposal back to active
with a new description, and ends an active one, all other fields
preserved. -/
theorem edit_end_frame_witness :
    (∃ m' : PMap,
      edit_proposal 3 [(1, ⟨"d", 1, 2, 3, false, [7], 3⟩)] 1 ⟨"e", true⟩ =
        some (m', Except.ok ()) ∧
      get_proposal m' 1 = some ⟨"e", 1, 2, 3, true, [7], 3⟩) ∧
    (∃ m' : PMap,
      end_proposal 3 [(1, ⟨"d", 1, 2, 3, false, [7], 3⟩)] 1 = some (m', Except.ok ()) ∧
      get_proposal m' 1 = some ⟨"d", 1, 2, 3, false, [7], 3⟩) := by
  have h := edit_end_frame 3 [(1, ⟨"d", 1, 2, 3, false, [7], 3⟩)] 1 ⟨"e", true⟩
    ⟨"d", 1, 2, 3, false, [7], 3⟩ rfl rfl
  exact ⟨h.1 (by decide), h.2 (by decide)⟩

/-! ### C5 -/

/-- C5: whenever `edit_proposal`, `end_proposal` or `vote` returns one of the
typed validation errors (`NoSuchProposal`, `AccessRejected`, `AlreadyVoted`,
`ProposalIsNotActive`) the map is completely unchanged, and in particular a
second vote by the same identity returns `AlreadyVoted` and leaves the state
exactly as it was after the first vote. -/
theorem typed_error_frame (c : Principal) (m : PMap) (key : Nat)
    (proposal : CreateProposal) (choice choice2 : Choice) (e : VoteError)
    (he : e = VoteError.NoSuchProposal ∨ e = VoteError.AccessRejected ∨
      e = VoteError.AlreadyVoted ∨ e = VoteError.ProposalIsNotActive) :
    (∀ m' : PMap, edit_proposal c m key proposal = some (m', Except.error e) → m' = m) ∧
    (∀ m' : PMap, end_proposal c m key = some (m', Except.error e) → m' = m) ∧
    (∀ m' : PMap, vote c m key choice = some (m', Except.error e) → m' = m) ∧
    (∀ m' : PMap, vote c m key choice = some (m', Except.ok ()) →
      vote c m' key choice2 = some (m', Except.error VoteError.AlreadyVoted)) := by
  refine ⟨?_, ?_, ?_, ?_⟩
  · intro m' herr
    cases hm : mapGet m key with
    | none =>
      simp [edit_proposal, hm] at herr
      exact herr.1.symm
    | some p =>
      by_cases hc : c = p.owner
      · have hedit : edit_proposal c m key proposal =
            writeBack m key
              { p with
                description := proposal.description
                is_active := proposal.is_active } := by
          simp [edit_proposal, hm, hc]
        rw [hedit] at herr
        by_cases hfit : (proposalEncode
            { p with
              description := proposal.description
              is_active := proposal.is_active }).length ≤ MAX_VALUE_SIZE
        · rw [writeBack_of_fits_present hfit hm] at herr
          simp at herr
        · rw [writeBack_of_oversized hfit] at herr
          simp at herr
      · simp [edit_proposal, hm, hc] at herr
        exact herr.1.symm
  · intro m' herr
    cases hm : mapGet m key with
    | none =>
      simp [end_proposal, hm] at herr
      exact herr.1.symm
    | some p =>
      by_cases hc : c = p.owner
      · have hend : end_proposal c m key = writeBack m key { p with is_active := false } := by
          simp [end_proposal, hm, hc]
        rw [hend] at herr
        by_cases hfit : (proposalEncode { p with is_active := false }).length ≤ MAX_VALUE_SIZE
        · rw [writeBack_of_fits_present hfit hm] at herr
          simp at herr
        · rw [writeBack_of_oversized hfit] at herr
          simp at herr
      · simp [end_proposal, hm, hc] at herr
        exact herr.1.symm
  · intro m' herr
    cases hm : mapGet m key with
    | none =>
      simp [vote, hm] at herr
      exact herr.1.symm
    | some p =>
      by_cases hv : c ∈ p.voted
      · simp [vote, hm, hv] at herr
        exact herr.1.symm
      · by_cases ha : p.is_active
        · have hvote : vote c m key choice = writeBack m key (castBallot c choice p) := by
            simp [vote, hm, hv, ha]
          rw [hvote] at herr
          by_cases hfit : (proposalEncode (castBallot c choice p)).length ≤ MAX_VALUE_SIZE
          · rw [writeBack_of_fits_present hfit hm] at herr
            simp at herr
          · rw [writeBack_of_oversized hfit] at herr
            simp at herr
        · simp [vote, hm, hv, ha] at herr
          exact herr.1.symm
  · intro m' hok
    cases hm : mapGet m key with
    | none =>
      simp [vote, hm] at hok
    | some p =>
      by_cases hv : c ∈ p.voted
      · simp [vote, hm, hv] at hok
      · by_cases ha : p.is_active
        · have hvote : vote c m key choice = writeBack m key (castBallot c choice p) := by
            simp [vote, hm, hv, ha]
          rw [hvote] at hok
          by_cases hfit : (proposalEncode (castBallot c choice p)).length ≤ MAX_VALUE_SIZE
          · rw [writeBack_of_fits_present hfit hm] at hok
            have hm' : (mapInsertRaw m key (castBallot c choice p)).1 = m' := by
              have h := Option.some.inj hok
              exact congrArg Prod.fst h
            have hget2 : mapGet m' key = some (castBallot c choice p) := by
              rw [← hm', mapGet_mapInsertRaw]
              simp
            have hmem2 : c ∈ (castBallot c choice p).voted := by
              rw [castBallot_voted]
              simp
            exact vote_of_mem_voted choice2 hget2 hmem2
          · rw [writeBack_of_oversized hfit] at hok
            simp at hok
        · simp [vote, hm, hv, ha] at hok

/-- Witness for C5: a repeat vote by the same caller returns `AlreadyVoted`
and leaves the state exactly as after the first vote. -/
theorem typed_error_frame_witness :
    vote 7 [(1, (⟨"d", 1, 0, 0, true, [7], 3⟩ : Proposal))] 1 Choice.Reject =
      some ([(1, ⟨"d", 1, 0, 0, true, [7], 3⟩)], Except.error VoteError.AlreadyVoted) :=
  (typed_error_frame 7 [(1, ⟨"d", 0, 0, 0, true, [], 3⟩)] 1 ⟨"x", true⟩ Choice.Approve
    Choice.Reject VoteError.AccessRejected (Or.inr (Or.inl rfl))).2.2.2
    [(1, ⟨"d", 1, 0, 0, true, [7], 3⟩)] rfl

/-! ### C7: the voted-set/tally invariant -/

/-- The per-record invariant: no duplicate voter, and the three tallies sum
to the number of voters. -/
def ProposalInv (p : Proposal) : Prop :=
  p.voted.Nodup ∧ p.approve + p.reject + p.pass = p.voted.length

/-- All records stored in the map satisfy the invariant. -/
def MapInv (m : PMap) : Prop :=
  ∀ key p, mapGet m key = some p → ProposalInv p

/-- States reachable from the empty map by the four canister operations,
with arbitrary callers and arguments; a trapped call rolls back to the
pre-call state (`opState`). -/
inductive Reachable : PMap → Prop where
  | empty : Reachable []
  | create (c : Principal) (key : Nat) (pr : CreateProposal) {m : PMap} :
      Reachable m → Reachable (opState m (create_proposal c m key pr))
  | edit (c : Principal) (key : Nat) (pr : CreateProposal) {m : PMap} :
      Reachable m → Reachable (opState m (edit_proposal c m key pr))
  | close (c : Principal) (key : Nat) {m : PMap} :
      Reachable m → Reachable (opState m (end_proposal c m key))
  | ballot (c : Principal) (key : Nat) (choice : Choice) {m : PMap} :
      Reachable m → Reachable (opState m (vote c m key choice))

theorem mapInv_insertRaw {m : PMap} (h : MapInv m) {v : Proposal} (hv : ProposalInv v)
    (key : Nat) : MapInv (mapInsertRaw m key v).1 := by
  intro k q hq
  rw [mapGet_mapInsertRaw] at hq
  by_cases hk : key = k
  · simp [hk] at hq
    exact hq ▸ hv
  · simp [hk] at hq
    exact h k q hq

theorem mapInv_opState_writeBack {m : PMap} {key : Nat} (h : MapInv m)
    {v : Proposal} (hv : ProposalInv v) :
    MapInv (opState m (writeBack m key v)) := by
  rw [opState_writeBack]
  by_cases hfit : (proposalEncode v).length ≤ MAX_VALUE_SIZE
  · rw [if_pos hfit]
    exact mapInv_insertRaw h hv key
  · rw [if_neg hfit]
    exact h

theorem mapInv_create (c : Principal) (key : Nat) (pr : CreateProposal) {m : PMap}
    (h : MapInv m) : MapInv (opState m (create_proposal c m key pr)) := by
  have hcr : create_proposal c m key pr = mapInsert m key (freshProposal c pr) := rfl
  rw [hcr, opState_mapInsert]
  by_cases hfit : (proposalEncode (freshProposal c pr)).length ≤ MAX_VALUE_SIZE
  · rw [if_pos hfit]
    refine mapInv_insertRaw h ?_ key
    constructor
    · exact List.nodup_nil
    · rfl
  · rw [if_neg hfit]
    exact h

theorem mapInv_edit (c : Principal) (key : Nat) (pr : CreateProposal) {m : PMap}
    (h : MapInv m) : MapInv (opState m (edit_proposal c m key pr)) := by
  cases hm : mapGet m key with
  | none =>
    have heq : edit_proposal c m key pr = some (m, Except.error VoteError.NoSuchProposal) := by
      simp [edit_proposal, hm]
    rw [heq]
    exact h
  | some p =>
    by_cases hc : c = p.owner
    · have hedit : edit_proposal c m key pr =
          writeBack m key
            { p with
              description := pr.description
              is_active := pr.is_active } := by
        simp [edit_proposal, hm, hc]
      rw [hedit]
      refine mapInv_opState_writeBack h ?_
      obtain ⟨h1, h2⟩ := h key p hm
      exact ⟨h1, h2⟩
    · have heq : edit_proposal c m key pr = some (m, Except.error VoteError.AccessRejected) := by
        simp [edit_proposal, hm, hc]
      rw [heq]
      exact h

theorem mapInv_close (c : Principal) (key : Nat) {m : PMap}
    (h : MapInv m) : MapInv (opState m (end_proposal c m key)) := by
  cases hm : mapGet m key with
  | none =>
    have heq : end_proposal c m key = some (m, Except.error VoteError.NoSuchProposal) := by
      simp [end_proposal, hm]
    rw [heq]
    exact h
  | some p =>
    by_cases hc : c = p.owner
    · have hend : end_proposal c m key = writeBack m key { p with is_active := false } := by
        simp [end_proposal, hm, hc]
      rw [hend]
      refine mapInv_opState_writeBack h ?_
      obtain ⟨h1, h2⟩ := h key p hm
      exact ⟨h1, h2⟩
    · have heq : end_proposal c m key = some (m, Except.error VoteError.AccessRejected) := by
        simp [end_proposal, hm, hc]
      rw [heq]
      exact h

theorem proposalInv_castBallot {p : Proposal} (c : Principal) (choice : Choice)
    (hp : ProposalInv p) (hmem : c ∉ p.voted) :
    ProposalInv (castBallot c choice p) := by
  obtain ⟨h1, h2⟩ := hp
  constructor
  · rw [castBallot_voted]
    simp [List.nodup_append, h1, hmem]
  · rw [castBallot_voted, castBallot_approve, castBallot_reject, castBallot_pass]
    simp only [List.length_append, List.length_singleton]
    cases choice <;> simp <;> omega

theorem mapInv_ballot (c : Principal) (key : Nat) (choice : Choice) {m : PMap}
    (h : MapInv m) : MapInv (opState m (vote c m key choice)) := by
  cases hm : mapGet m key with
  | none =>
    have heq : vote c m key choice = some (m, Except.error VoteError.NoSuchProposal) := by
      simp [vote, hm]
    rw [heq]
    exact h
  | some p =>
    by_cases hv : c ∈ p.voted
    · have heq : vote c m key choice = some (m, Except.error VoteError.AlreadyVoted) := by
        simp [vote, hm, hv]
      rw [heq]
      exact h
    · by_cases ha : p.is_active
      · have hvote : vote c m key choice = writeBack m key (castBallot c choice p) := by
          simp [vote, hm, hv, ha]
        rw [hvote]
        exact mapInv_opState_writeBack h (proposalInv_castBallot c choice (h key p hm) hv)
      · have heq : vote c m key choice =
            some (m, Except.error VoteError.ProposalIsNotActive) := by
          simp [vote, hm, hv, ha]
        rw [heq]
        exact h

theorem reachable_mapInv {m : PMap} (h : Reachable m) : MapInv m := by
  induction h with
  | empty => intro k q hq; simp [mapGet] at hq
  | create c key pr _ ih => exact mapInv_create c key pr ih
  | edit c key pr _ ih => exact mapInv_edit c key pr ih
  | close c key _ ih => exact mapInv_close c key ih
  | ballot c key choice _ ih => exact mapInv_ballot c key choice ih

/-- C7: on every reachable map state, every stored proposal satisfies the
invariant: its `voted` list has no duplicate identity and
`approve + reject + pass` equals the number of entries in `voted`. -/
theorem reachable_proposals_invariant (m : PMap) (h : Reachable m) (key : Nat)
    (p : Proposal) (hget : get_proposal m key = some p) : ProposalInv p := by
  rw [get_proposal] at hget
  exact reachable_mapInv h key p hget

/-- Witness for C7: after creating a proposal and casting one vote, the
stored record satisfies the invariant. -/
theorem reachable_proposals_invariant_witness :
    ProposalInv ⟨"d", 1, 0, 0, true, [7], 3⟩ :=
  reachable_proposals_invariant
    (opState (opState [] (create_proposal 3 [] 1 ⟨"d", true⟩))
      (vote 7 (opState [] (create_proposal 3 [] 1 ⟨"d", true⟩)) 1 Choice.Approve))
    (Reachable.ballot 7 1 Choice.Approve (Reachable.create 3 1 ⟨"d", true⟩ Reachable.empty))
    1 ⟨"d", 1, 0, 0, true, [7], 3⟩ rfl

/-! ### C9: proposal count and created keys -/

/-- One call at the canister boundary, with its caller and arguments. -/
inductive Op where
  | create (c : Principal) (key : Nat) (pr : CreateProposal)
  | edit (c : Principal) (key : Nat) (pr : CreateProposal)
  | close (c : Principal) (key : Nat)
  | ballot (c : Principal) (key : Nat) (choice : Choice)

/-- State transition of one call: the map after the call returns, a trapped
call rolling back to the pre-call state. -/
def applyOp (m : PMap) : Op → PMap
  | Op.create c key pr => opState m (create_proposal c m key pr)
  | Op.edit c key pr => opState m (edit_proposal c m key pr)
  | Op.close c key => opState m (end_proposal c m key)
  | Op.ballot c key choice => opState m (vote c m key choice)

/-- Run a sequence of calls starting from the empty map. -/
def runOps (ops : List Op) : PMap :=
  ops.foldl applyOp []

/-- The keys passed to `create_proposal` along a call sequence, in order and
with repetitions — whether or not the call committed. -/
def createdKeys : List Op → List Nat
  | [] => []
  | Op.create _ key _ :: rest => key :: createdKeys rest
  | _ :: rest => createdKeys rest

/-- The keys of `create_proposal` calls that commit (their fresh record
encodes within the bound; an oversized create traps and stores nothing), in
order and with repetitions. -/
def storedCreateKeys : List Op → List Nat
  | [] => []
  | Op.create c key pr :: rest =>
    if (proposalEncode (freshProposal c pr)).length ≤ MAX_VALUE_SIZE then
      key :: storedCreateKeys rest
    else
      storedCreateKeys rest
  | _ :: rest => storedCreateKeys rest

/-- The key column of the stored map. -/
def keysOf (m : PMap) : List Nat :=
  m.map Prod.fst

theorem mem_keysOf {m : PMap} {k : Nat} : k ∈ keysOf m ↔ (mapGet m k).isSome := by
  induction m with
  | nil => simp [keysOf, mapGet]
  | cons kv rest ih =>
    obtain ⟨a, v⟩ := kv
    by_cases hak : a = k
    · subst hak
      simp [keysOf, mapGet]
    · simp [keysOf, mapGet, hak, Ne.symm hak] at ih ⊢
      exact ih

theorem map_fst_filter (m : PMap) (k : Nat) :
    (m.filter (fun kv => kv.1 != k)).map Prod.fst =
      (m.map Prod.fst).filter (fun x => x != k) := by
  induction m with
  | nil => rfl
  | cons kv rest ih =>
    obtain ⟨a, v⟩ := kv
    by_cases hak : a = k
    · subst hak
      simp [List.filter_cons, ih]
    · have hb : (a != k) = true := bne_iff_ne.mpr hak
      simp [List.filter_cons, hb, ih]

theorem keysOf_mapInsertRaw (m : PMap) (k : Nat) (v : Proposal) :
    keysOf (mapInsertRaw m k v).1 = k :: (keysOf m).filter (fun x => x != k) := by
  simp [keysOf, mapInsertRaw, map_fst_filter]

theorem keysOf_nodup_mapInsertRaw {m : PMap} (h : (keysOf m).Nodup) (k : Nat) (v : Proposal) :
    (keysOf (mapInsertRaw m k v).1).Nodup := by
  rw [keysOf_mapInsertRaw]
  refine List.Nodup.cons ?_ (h.filter _)
  intro hk
  have := List.of_mem_filter hk
  simp at this

theorem keysOf_toFinset_mapInsertRaw (m : PMap) (k : Nat) (v : Proposal) :
    (keysOf (mapInsertRaw m k v).1).toFinset = insert k (keysOf m).toFinset := by
  rw [keysOf_mapInsertRaw]
  ext a
  by_cases hak : a = k
  · subst hak
    simp
  · simp [hak, List.mem_filter, bne_iff_ne]

theorem keysOf_opState_writeBack {m : PMap} {key : Nat} {p : Proposal}
    (hm : mapGet m key = some p) (v : Proposal) :
    (keysOf (opState m (writeBack m key v))).toFinset = (keysOf m).toFinset ∧
    ((keysOf m).Nodup → (keysOf (opState m (writeBack m key v))).Nodup) := by
  rw [opState_writeBack]
  by_cases hfit : (proposalEncode v).length ≤ MAX_VALUE_SIZE
  · rw [if_pos hfit]
    constructor
    · rw [keysOf_toFinset_mapInsertRaw]
      refine Finset.insert_eq_self.mpr ?_
      rw [List.mem_toFinset, mem_keysOf, hm]
      rfl
    · intro h
      exact keysOf_nodup_mapInsertRaw h key v
  · rw [if_neg hfit]
    exact ⟨rfl, fun h => h⟩

theorem keysOf_applyOp_create_fits {c : Principal} {pr : CreateProposal}
    (hfit : (proposalEncode (freshProposal c pr)).length ≤ MAX_VALUE_SIZE)
    (m : PMap) (key : Nat) :
    (keysOf (applyOp m (Op.create c key pr))).toFinset = insert key (keysOf m).toFinset ∧
    ((keysOf m).Nodup → (keysOf (applyOp m (Op.create c key pr))).Nodup) := by
  have happ : applyOp m (Op.create c key pr) = (mapInsertRaw m key (freshProposal c pr)).1 := by
    have hcr : create_proposal c m key pr = mapInsert m key (freshProposal c pr) := rfl
    rw [applyOp, hcr, opState_mapInsert, if_pos hfit]
  rw [happ]
  exact ⟨keysOf_toFinset_mapInsertRaw m key _,
    fun h => keysOf_nodup_mapInsertRaw h key _⟩

theorem applyOp_create_oversized {c : Principal} {pr : CreateProposal}
    (hfit : ¬ (proposalEncode (freshProposal c pr)).length ≤ MAX_VALUE_SIZE)
    (m : PMap) (key : Nat) :
    applyOp m (Op.create c key pr) = m := by
  have hcr : create_proposal c m key pr = mapInsert m key (freshProposal c pr) := rfl
  rw [applyOp, hcr, opState_mapInsert, if_neg hfit]

theorem keysOf_applyOp_other (m : PMap) (op : Op)
    (hop : ∀ c key pr, op ≠ Op.create c key pr) :
    (keysOf (applyOp m op)).toFinset = (keysOf m).toFinset ∧
    ((keysOf m).Nodup → (keysOf (applyOp m op)).Nodup) := by
  cases op with
  | create c key pr => exact absurd rfl (hop c key pr)
  | edit c key pr =>
    cases hm : mapGet m key with
    | none => simp [applyOp, edit_proposal, hm, opState]
    | some p =>
      by_cases hc : c = p.owner
      · have hedit : edit_proposal c m key pr =
            writeBack m key
              { p with
                description := pr.description
                is_active := pr.is_active } := by
          simp [edit_proposal, hm, hc]
        simp only [applyOp, hedit]
        exact keysOf_opState_writeBack hm _
      · simp [applyOp, edit_proposal, hm, hc, opState]
  | close c key =>
    cases hm : mapGet m key with
    | none => simp [applyOp, end_proposal, hm, opState]
    | some p =>
      by_cases hc : c = p.owner
      · have hend : end_proposal c m key = writeBack m key { p with is_active := false } := by
          simp [end_proposal, hm, hc]
        simp only [applyOp, hend]
        exact keysOf_opState_writeBack hm _
      · simp [applyOp, end_proposal, hm, hc, opState]
  | ballot c key choice =>
    cases hm : mapGet m key with
    | none => simp [applyOp, vote, hm, opState]
    | some p =>
      by_cases hv : c ∈ p.voted
      · simp [applyOp, vote, hm, hv, opState]
      · by_cases ha : p.is_active
        · have hvote : vote c m key choice = writeBack m key (castBallot c choice p) := by
            simp [vote, hm, hv, ha]
          simp only [applyOp, hvote]
          exact keysOf_opState_writeBack hm _
        · simp [applyOp, vote, hm, hv, ha, opState]

theorem foldl_applyOp_keys (ops : List Op) :
    ∀ m : PMap, (keysOf m).Nodup →
      (keysOf (ops.foldl applyOp m)).Nodup ∧
      (keysOf (ops.foldl applyOp m)).toFinset =
        (keysOf m).toFinset ∪ (storedCreateKeys ops).toFinset := by
  induction ops with
  | nil =>
    intro m hm
    simp [storedCreateKeys, hm]
  | cons op rest ih =>
    intro m hm
    cases op with
    | create c key pr =>
      by_cases hfit : (proposalEncode (freshProposal c pr)).length ≤ MAX_VALUE_SIZE
      · obtain ⟨hfs, hnd⟩ := keysOf_applyOp_create_fits hfit m key
        obtain ⟨ih1, ih2⟩ := ih (applyOp m (Op.create c key pr)) (hnd hm)
        refine ⟨ih1, ?_⟩
        rw [List.foldl_cons]
        rw [ih2, hfs]
        have hsk : storedCreateKeys (Op.create c key pr :: rest) =
            key :: storedCreateKeys rest := by
          simp [storedCreateKeys, hfit]
        rw [hsk]
        ext a
        simp
      · have happ : applyOp m (Op.create c key pr) = m := applyOp_create_oversized hfit m key
        obtain ⟨ih1, ih2⟩ := ih m hm
        have hsk : storedCreateKeys (Op.create c key pr :: rest) = storedCreateKeys rest := by
          simp [storedCreateKeys, hfit]
        rw [List.foldl_cons, happ]
        exact ⟨ih1, by rw [ih2, hsk]⟩
    | edit c key pr =>
      obtain ⟨hfs, hnd⟩ := keysOf_applyOp_other m (Op.edit c key pr)
        (by intro c' k' p' h; cases h)
      obtain ⟨ih1, ih2⟩ := ih (applyOp m (Op.edit c key pr)) (hnd hm)
      refine ⟨ih1, ?_⟩
      rw [List.foldl_cons]
      rw [ih2, hfs]
      rfl
    | close c key =>
      obtain ⟨hfs, hnd⟩ := keysOf_applyOp_other m (Op.close c key)
        (by intro c' k' p' h; cases h)
      obtain ⟨ih1, ih2⟩ := ih (applyOp m (Op.close c key)) (hnd hm)
      refine ⟨ih1, ?_⟩
      rw [List.foldl_cons]
      rw [ih2, hfs]
      rfl
    | ballot c key choice =>
      obtain ⟨hfs, hnd⟩ := keysOf_applyOp_other m (Op.ballot c key choice)
        (by intro c' k' p' h; cases h)
      obtain ⟨ih1, ih2⟩ := ih (applyOp m (Op.ballot c key choice)) (hnd hm)
      refine ⟨ih1, ?_⟩
      rw [List.foldl_cons]
      rw [ih2, hfs]
      rfl

/-- Counterexample to C9 as stated: a single oversized `create_proposal`
call traps and stores nothing, so afterwards the count (0) differs from the
number of distinct keys ever passed to `create_proposal` (1). -/
theorem proposal_count_counterexample :
    get_proposal_count (runOps [Op.create 3 1 ⟨hugeDescription, true⟩]) ≠
      (createdKeys [Op.create 3 1 ⟨hugeDescription, true⟩]).toFinset.card ∧
    createdKeys [Op.create 3 1 ⟨hugeDescription, true⟩] = [1] ∧
    get_proposal_count (runOps [Op.create 3 1 ⟨hugeDescription, true⟩]) = 0 := by
  have h0 : runOps [Op.create 3 1 ⟨hugeDescription, true⟩] = [] := by
    rw [runOps, List.foldl_cons, applyOp_create_oversized huge_create_oversized,
      List.foldl_nil]
  have hck : createdKeys [Op.create 3 1 ⟨hugeDescription, true⟩] = [1] := rfl
  refine ⟨?_, hck, ?_⟩
  · rw [h0, hck]
    simp [get_proposal_count]
  · rw [h0]
    rfl

/-- C9 (amended): after any call sequence from the empty map,
`get_proposal_count` equals the number of distinct keys of the
`create_proposal` calls that committed — an oversized create traps, leaves
the map unchanged and does not count; key reuse does not increase the count;
`edit_proposal`, `end_proposal` and `vote` never change the count — and a
key is present exactly when some committed `create_proposal` call used it:
no operation ever removes a key. -/
theorem proposal_count_distinct_created_keys (ops : List Op) :
    get_proposal_count (runOps ops) = (storedCreateKeys ops).toFinset.card ∧
    ∀ k : Nat, (get_proposal (runOps ops) k).isSome ↔ k ∈ storedCreateKeys ops := by
  obtain ⟨hnd, hfs⟩ := foldl_applyOp_keys ops [] (by simp [keysOf])
  have hempty : (keysOf ([] : PMap)).toFinset = ∅ := by simp [keysOf]
  rw [hempty, Finset.empty_union] at hfs
  have hr : runOps ops = List.foldl applyOp [] ops := rfl
  constructor
  · have hlen : get_proposal_count (runOps ops) = (keysOf (runOps ops)).length := by
      simp [get_proposal_count, keysOf]
    rw [hlen, hr, ← List.toFinset_card_of_nodup hnd, hfs]
  · intro k
    rw [get_proposal, ← mem_keysOf, ← List.mem_toFinset, hr, hfs, List.mem_toFinset]

/-! ### C8: record codec round-trip -/

theorem readUnary_replicate (n : Nat) (r : Bytes) :
    readUnary (List.replicate n 1 ++ 0 :: r) = some (n, r) := by
  induction n with
  | zero => simp [readUnary]
  | succ k ih => simp [List.replicate_succ, readUnary, ih]

theorem take_length_append (l r : Bytes) : (l ++ r).take l.length = l :=
  List.take_left l r

theorem drop_length_append (l r : Bytes) : (l ++ r).drop l.length = r :=
  List.drop_left l r

theorem readBlob_blob (l rest : Bytes) : readBlob (blob l ++ rest) = some (l, rest) := by
  have hshape : blob l ++ rest = List.replicate l.length 1 ++ 0 :: (l ++ rest) := by
    simp [blob]
  rw [hshape, readBlob, readUnary_replicate]
  have hle : l.length ≤ (l ++ rest).length := by
    simp
  simp [hle, take_length_append, drop_length_append]

theorem digitsToNat_digitsAux (fuel : Nat) :
    ∀ n : Nat, n ≤ fuel → digitsToNat (digitsAux fuel n) = n := by
  induction fuel with
  | zero =>
    intro n h
    have : n = 0 := Nat.le_zero.mp h
    simp [digitsAux, this, digitsToNat]
  | succ k ih =>
    intro n h
    by_cases hn : n = 0
    · simp [digitsAux, hn, digitsToNat]
    · have hdiv : n / 256 ≤ k := by
        have h1 : n / 256 < n := Nat.div_lt_self (Nat.pos_of_ne_zero hn) (by norm_num)
        omega
      simp only [digitsAux, hn, if_false, digitsToNat]
      rw [ih (n / 256) hdiv]
      exact Nat.mod_add_div n 256

theorem digitsToNat_natDigits (n : Nat) : digitsToNat (natDigits n) = n :=
  digitsToNat_digitsAux n n le_rfl

theorem readNatB_encNat (n : Nat) (rest : Bytes) :
    readNatB (encNat n ++ rest) = some (n, rest) := by
  rw [encNat, readNatB, readBlob_blob]
  simp [digitsToNat_natDigits]

theorem readBool_encBool (b : Bool) (rest : Bytes) :
    readBool (encBool b ++ rest) = some (b, rest) := by
  cases b <;> simp [encBool, readBool]

theorem readString_encString (s : String) (rest : Bytes) :
    readString (encString s ++ rest) = some (s, rest) := by
  rw [encString, readString, readBlob_blob]
  simp [List.map_map, Function.comp_def]

theorem readNats_join (l : List Nat) (rest : Bytes) :
    readNats l.length ((l.map encNat).flatten ++ rest) = some (l, rest) := by
  induction l with
  | nil => simp [readNats]
  | cons x xs ih =>
    have hshape : (((x :: xs).map encNat).flatten ++ rest) =
        encNat x ++ ((xs.map encNat).flatten ++ rest) := by
      simp
    rw [List.length_cons, hshape, readNats, readNatB_encNat]
    simp [ih]

theorem readPrincipalList_enc (l : List Principal) (rest : Bytes) :
    readPrincipalList (encPrincipalList l ++ rest) = some (l, rest) := by
  have hshape : encPrincipalList l ++ rest =
      List.replicate l.length 1 ++ 0 :: ((l.map encNat).flatten ++ rest) := by
    simp [encPrincipalList]
  rw [hshape, readPrincipalList, readUnary_replicate]
  simp [readNats_join]

/-- C8: for every proposal whose encoding fits in the 5000-byte maximum,
decoding the encoding reproduces every field exactly. -/
theorem proposal_codec_roundtrip (p : Proposal)
    (hsize : (proposalEncode p).length ≤ 5000) :
    proposalDecode (proposalEncode p) = some p := by
  have howner : encNat p.owner = encNat p.owner ++ [] := by simp
  rw [proposalDecode, proposalEncode]
  rw [List.append_assoc, List.append_assoc, List.append_assoc, List.append_assoc,
    List.append_assoc]
  rw [readString_encString]
  simp only [Option.some_bind]
  rw [readNatB_encNat]
  simp only [Option.some_bind]
  rw [readNatB_encNat]
  simp only [Option.some_bind]
  rw [readNatB_encNat]
  simp only [Option.some_bind]
  rw [readBool_encBool]
  simp only [Option.some_bind]
  rw [readPrincipalList_enc]
  simp only [Option.some_bind]
  rw [howner, readNatB_encNat]
  rfl

/-- Witness for C8: a concrete proposal with non-trivial fields encodes
within the bound and round-trips exactly. -/
theorem proposal_codec_roundtrip_witness :
    (proposalEncode ⟨"ab", 1, 2, 3, true, [4, 5], 6⟩).length ≤ 5000 ∧
    proposalDecode (proposalEncode ⟨"ab", 1, 2, 3, true, [4, 5], 6⟩) =
      some ⟨"ab", 1, 2, 3, true, [4, 5], 6⟩ :=
  ⟨by decide, proposal_codec_roundtrip ⟨"ab", 1, 2, 3, true, [4, 5], 6⟩ (by decide)⟩
